import Mathlib

/-!
# Verification of the nanosamfw firmware pipeline against its specification

Shallow embedding of the core logic of the `nanosamfw` repository:
FUS crypto helpers (`fus/crypto.py`), the streaming decrypt engine
(`fus/decrypt.py`), version-code normalization (`fus/firmware.py`),
inform-response parsing (`fus/responses.py`), the Odin-mode probe
(`device/odin_client.py`), and the download/repository service
(`download/service.py`, `download/firmware_repository.py`,
`download/imei_repository.py`).

Python strings are modelled as `List Char`; byte strings as `List Nat`;
fallible code returns `Option`/`Except`; database tables and the file
system are explicit lists threaded through the state-updating functions.
-/

namespace Nanosamfw

/-! ## Python primitives -/

/-- UTF-8 encoding of a single character, as Python's `str.encode` produces. -/
def charUtf8 (c : Char) : List Nat :=
  let n := c.toNat
  if n < 0x80 then [n]
  else if n < 0x800 then [0xC0 + n / 64, 0x80 + n % 64]
  else if n < 0x10000 then [0xE0 + n / 4096, 0x80 + (n / 64) % 64, 0x80 + n % 64]
  else [0xF0 + n / 262144, 0x80 + (n / 4096) % 64, 0x80 + (n / 64) % 64, 0x80 + n % 64]

/-- UTF-8 encoding of a string (`str.encode()` in the source). -/
def encodeUtf8 (s : List Char) : List Nat :=
  s.flatMap charUtf8

/-! ## `fus/crypto.py` -/

/-- `KEY_1` constant from `fus/crypto.py` (32 characters). -/
def KEY_1 : List Char := "vicopx7dqu06emacgpnpy8j8zwhduwlh".data

/-- `KEY_2` constant from `fus/crypto.py` (16 characters). -/
def KEY_2 : List Char := "9u7qab84rpc16gvk".data

/-- `pkcs_unpad(data) = data[ : -data[-1]]` from `fus/crypto.py`.
Python raises `IndexError` on empty input; callers in scope only apply it to
non-empty data, so the empty case is mapped to `[]`.  For a non-empty list with
last byte `k`, Python's `data[:-k]` is all of `data` but the last `k` bytes
when `0 < k`, and the empty slice when `k = 0`. -/
def pkcs_unpad (data : List Nat) : List Nat :=
  match data.getLast? with
  | none => []
  | some k => if k = 0 then [] else data.take (data.length - k)

/-- `derive_key(nonce)` from `fus/crypto.py`:
`k = "".join(KEY_1[ord(nonce[i]) % 16] for i in range(16)); k += KEY_2;
return k.encode()`.  Python raises `IndexError` when the nonce has fewer than
16 characters; that case is `none`. -/
def derive_key (nonce : List Char) : Option (List Nat) :=
  if nonce.length < 16 then none
  else
    some (encodeUtf8
      (((List.range 16).map fun i => KEY_1.getD ((nonce.getD i ' ').toNat % 16) ' ')
        ++ KEY_2))

/-- Failure of `logic_check` (`ValueError("logic_check input too short")`). -/
inductive LogicCheckError where
  | inputTooShort
  deriving DecidableEq, Repr

/-- `logic_check(inp, nonce)` from `fus/crypto.py`: raises when
`len(inp) < 16`, otherwise returns `"".join(inp[ord(c) & 0xF] for c in nonce)`. -/
def logic_check (inp nonce : List Char) : Except LogicCheckError (List Char) :=
  if inp.length < 16 then .error .inputTooShort
  else .ok (nonce.map fun c => inp.getD (c.toNat &&& 0xF) ' ')

/-! ## `fus/firmware.py` : version-code normalization -/

/-- Python `str.split(sep)` for a one-character separator: splitting `""`
gives `[""]`, and every separator occurrence starts a new fragment. -/
def splitOnChar (sep : Char) : List Char → List (List Char)
  | [] => [[]]
  | c :: rest =>
    if c = sep then [] :: splitOnChar sep rest
    else
      match splitOnChar sep rest with
      | [] => [[c]]
      | h :: t => (c :: h) :: t

/-- Python `sep.join(parts)` for a one-character separator. -/
def joinChar (sep : Char) : List (List Char) → List Char
  | [] => []
  | [p] => p
  | p :: ps => p ++ sep :: joinChar sep ps

/-- The `if parts[2] == "": parts[2] = parts[0]` step of `normalize_vercode`.
Accessing `parts[2]` on fewer than three parts raises `IndexError` (`none`). -/
def normFix (l : List (List Char)) : Option (List (List Char)) :=
  if l.length < 3 then none
  else some (if l.getD 2 [] = [] then l.set 2 (l.headD []) else l)

/-- Core of `normalize_vercode` on the split parts: `if len(parts) == 3:
parts.append(parts[0])`, then the `parts[2]` fix. -/
def normParts (ps : List (List Char)) : Option (List (List Char)) :=
  normFix (if ps.length = 3 then ps ++ [ps.headD []] else ps)

/-- `normalize_vercode(vercode)` from `fus/firmware.py`: split on `"/"`,
normalize the parts, and join with `"/"`. -/
def normalize_vercode (vercode : List Char) : Option (List Char) :=
  (normParts (splitOnChar '/' vercode)).map (joinChar '/')

/-! ## `fus/decrypt.py` : streaming AES-ECB decryption -/

/-- Failure modes of `_decrypt_progress`
(`DecryptError("Invalid input block size (not multiple of 16)")`). -/
inductive DecryptError where
  | invalidBlockSize
  deriving DecidableEq, Repr

/-- `cipher.decrypt` in AES-ECB mode: the block primitive `f` (16-byte AES
block decryption, kept abstract) applied to each 16-byte block in turn. -/
def ecbDecrypt (f : List Nat → List Nat) : List Nat → List Nat
  | [] => []
  | b :: rest => f ((b :: rest).take 16) ++ ecbDecrypt f ((b :: rest).drop 16)
  termination_by l => l.length
  decreasing_by simp; omega

/-- The successive `fin.read(chunk_size)` results on a stream: greedy
chunks of at most `n` bytes. -/
def chunksOf (n : Nat) : List Nat → List (List Nat)
  | [] => []
  | b :: rest =>
    if h : n = 0 then []
    else (b :: rest).take n :: chunksOf n ((b :: rest).drop n)
  termination_by l => l.length
  decreasing_by simp; omega

/-- The read/decrypt/write loop of `_decrypt_progress`: read a chunk, stop
when it is empty, AES-ECB-decrypt it, PKCS#7-unpad it when the read has
reached the declared `total`, emit it, and continue at the new position. -/
def decryptLoop (f : List Nat → List Nat) (chunkSize total : Nat) :
    Nat → List Nat → List Nat
  | pos, rest =>
    if hb : rest.take chunkSize = [] then []
    else
      (if pos + (rest.take chunkSize).length = total then
        pkcs_unpad (ecbDecrypt f (rest.take chunkSize))
      else ecbDecrypt f (rest.take chunkSize))
        ++ decryptLoop f chunkSize total
            (pos + (rest.take chunkSize).length) (rest.drop chunkSize)
  termination_by _ rest => rest.length
  decreasing_by
    rw [List.take_eq_nil_iff] at hb
    push_neg at hb
    rcases Nat.exists_eq_succ_of_ne_zero hb.1 with ⟨k, rfl⟩
    cases rest with
    | nil => exact absurd rfl hb.2
    | cons x t => simp; omega

/-- `_decrypt_progress(fin, fout, key, total, chunk_size)` from
`fus/decrypt.py`, with the input stream given as the byte list `input`:
fails with `InvalidBlockSize` when `total % 16 != 0`, otherwise runs the
read/decrypt/write loop from position 0 and returns the bytes written. -/
def decrypt_progress (f : List Nat → List Nat) (input : List Nat)
    (total chunkSize : Nat) : Except DecryptError (List Nat) :=
  if total % 16 ≠ 0 then .error .invalidBlockSize
  else .ok (decryptLoop f chunkSize total 0 input)

/-- `decrypt_file` from `fus/decrypt.py`: the declared total is the size of
the input file, and the chunk size is 4096. -/
def decrypt_file (f : List Nat → List Nat) (enc : List Nat) :
    Except DecryptError (List Nat) :=
  decrypt_progress f enc enc.length 4096

/-- Specification shape for the C3 claim: all chunks decrypted verbatim
except the final one, which is PKCS#7-unpadded. -/
def tailUnpadJoin : List (List Nat) → List Nat
  | [] => []
  | [d] => pkcs_unpad d
  | d :: e :: ds => d ++ tailUnpadJoin (e :: ds)

/-! ## `fus/responses.py` : inform-response parsing -/

/-- ASCII whitespace stripped by Python's `int()`. -/
def isPySpace (c : Char) : Bool :=
  c = ' ' || c = '\t' || c = '\n' || c = '\r' || c.toNat = 11 || c.toNat = 12

/-- Value of a non-empty all-digit run, else `none`. -/
def digitsVal (cs : List Char) : Option Nat :=
  if cs = [] then none
  else if cs.all Char.isDigit then
    some (cs.foldl (fun acc c => acc * 10 + (c.toNat - 48)) 0)
  else none

/-- Python `int(s)` on a string: optional surrounding whitespace, an optional
single sign, then one or more decimal digits; `none` models `ValueError`. -/
def pyInt (s : List Char) : Option Int :=
  match ((s.dropWhile isPySpace).reverse.dropWhile isPySpace).reverse with
  | '+' :: ds => (digitsVal ds).map Int.ofNat
  | '-' :: ds => (digitsVal ds).map fun n => -(n : Int)
  | ds => (digitsVal ds).map Int.ofNat

/-- The XML fields that `parse_inform` reads from a BinaryInform response:
`none` models a missing element, `some []` an element with no text. -/
structure InformXml where
  status : Option (List Char)
  latest_fw_version : Option (List Char)
  logic_value_factory : Option (List Char)
  binary_name : Option (List Char)
  binary_byte_size : Option (List Char)
  model_path : Option (List Char)
  deriving DecidableEq, Repr

/-- `InformInfo` dataclass from `fus/responses.py`. -/
structure InformInfo where
  latest_fw_version : List Char
  logic_value_factory : List Char
  filename : List Char
  path : List Char
  size_bytes : Int
  deriving DecidableEq, Repr

/-- Failure modes of `parse_inform`: the `InformError` messages for a missing
field and for a bad status, and the uncaught Python `ValueError` raised by
`int()` on a non-integer text. -/
inductive InformFailure where
  | missingField (name : String)
  | badStatus (code : Int)
  | valueError (field : String)
  deriving DecidableEq, Repr

/-- The missing/empty-field checks of `parse_inform` (`find` + `.text is None`
or `findtext` + `if not …`, which reject both absent elements and empty
text). -/
def requireText (fld : Option (List Char)) (name : String) :
    Except InformFailure (List Char) :=
  match fld with
  | none => .error (.missingField name)
  | some t => if t = [] then .error (.missingField name) else .ok t

/-- `parse_inform(root)` from `fus/responses.py`: require a Status text,
parse it as an integer, require it to be 200, then require the five fields in
order, parsing `BINARY_BYTE_SIZE` as an integer. -/
def parse_inform (x : InformXml) : Except InformFailure InformInfo :=
  match requireText x.status "Status" with
  | .error e => .error e
  | .ok st =>
    match pyInt st with
    | none => .error (.valueError "Status")
    | some code =>
      if code ≠ 200 then .error (.badStatus code)
      else
        match requireText x.latest_fw_version "LATEST_FW_VERSION" with
        | .error e => .error e
        | .ok latest =>
          match requireText x.logic_value_factory "LOGIC_VALUE_FACTORY" with
          | .error e => .error e
          | .ok logic =>
            match requireText x.binary_name "BINARY_NAME" with
            | .error e => .error e
            | .ok filename =>
              match requireText x.binary_byte_size "BINARY_BYTE_SIZE" with
              | .error e => .error e
              | .ok szText =>
                match pyInt szText with
                | none => .error (.valueError "BINARY_BYTE_SIZE")
                | some size =>
                  match requireText x.model_path "MODEL_PATH" with
                  | .error e => .error e
                  | .ok path =>
                    .ok {
                      latest_fw_version := latest, logic_value_factory := logic,
                      filename := filename, path := path, size_bytes := size }

/-! ## `device/odin_client.py` : Odin-mode probe -/

/-- `LOKE_RESPONSE = b"LOKE"`. -/
def LOKE_RESPONSE : List Nat := [0x4C, 0x4F, 0x4B, 0x45]

/-- Python `pat in response` on bytes: contiguous-substring containment. -/
def bytesContains (pat : List Nat) : List Nat → Bool
  | [] => pat.isEmpty
  | b :: rest => pat.isPrefixOf (b :: rest) || bytesContains pat rest

/-- `DeviceOdinError` raised by `is_odin_mode` on `serial.SerialException`. -/
inductive DeviceOdinError where
  | serialCommunication
  deriving DecidableEq, Repr

/-- Outcome of the serial exchange inside `is_odin_mode` (open with RTS/CTS,
clear input, write `ODIN`, sleep, inspect `in_waiting`): either a
`SerialException` at some step, or the bytes waiting to be read. -/
inductive SerialProbe where
  | failure
  | bytesWaiting (bs : List Nat)
  deriving DecidableEq, Repr

/-- `is_odin_mode(port_name, timeout)` from `device/odin_client.py` over the
probe outcome: a transport failure raises `DeviceOdinError`; otherwise, if
bytes are waiting they are read and tested for `LOKE`, and if none are
waiting the function returns `False`. -/
def is_odin_mode (probe : SerialProbe) : Except DeviceOdinError Bool :=
  match probe with
  | .failure => .error .serialCommunication
  | .bytesWaiting bs =>
    if bs.length > 0 then .ok (bytesContains LOKE_RESPONSE bs)
    else .ok false

/-! ## `download/firmware_repository.py` : firmware records and paths -/

/-- `FirmwareRecord` dataclass (status flags are SQLite 0/1 integers). -/
structure FirmwareRecord where
  version_code : List Char
  filename : List Char
  path : List Char
  size_bytes : Nat
  logic_value_factory : List Char
  latest_fw_version : List Char
  downloaded : Nat
  decrypted : Nat
  extracted : Nat
  deriving DecidableEq, Repr

/-- Python `str.replace(old, new)` for non-empty `old`: replace all
non-overlapping occurrences left to right.  Fuelled by the input length
(each step consumes at least one character) so that it is structurally
recursive and kernel-evaluable. -/
def pyReplaceAux (old new : List Char) : Nat → List Char → List Char
  | 0, s => s
  | _ + 1, [] => []
  | fuel + 1, c :: rest =>
    if old ≠ [] ∧ old.isPrefixOf (c :: rest) then
      new ++ pyReplaceAux old new fuel ((c :: rest).drop old.length)
    else c :: pyReplaceAux old new fuel rest

/-- Python `str.replace(old, new)` (as used with `old = ".enc4"`). -/
def pyReplace (old new s : List Char) : List Char :=
  pyReplaceAux old new s.length s

/-- `FirmwareRecord.encrypted_file_path = PATHS.firmware_dir / filename`,
with the firmware directory as an explicit path parameter. -/
def encrypted_file_path (fwDir : List Char) (r : FirmwareRecord) : List Char :=
  fwDir ++ '/' :: r.filename

/-- `FirmwareRecord.decrypted_file_path
= PATHS.decrypted_dir / filename.replace('.enc4', '')`. -/
def decrypted_file_path (decDir : List Char) (r : FirmwareRecord) : List Char :=
  decDir ++ '/' :: pyReplace ".enc4".data [] r.filename

/-- `find_firmware(version_code)`: the row with that version code, if any. -/
def find_firmware (tbl : List FirmwareRecord) (vc : List Char) :
    Option FirmwareRecord :=
  tbl.find? fun r => r.version_code == vc

/-- `delete_firmware(version_code)`: remove the row with that version code. -/
def delete_firmware (tbl : List FirmwareRecord) (vc : List Char) :
    List FirmwareRecord :=
  tbl.filter fun r => !(r.version_code == vc)

/-! ## `download/service.py` : cache check, download engine, cleanup -/

/-- The cache decision at the end of `check_and_prepare_firmware`:
`is_cached = cached is not None and cached.downloaded == 1`. -/
def is_cached_check (tbl : List FirmwareRecord) (version_norm : List Char) : Bool :=
  match find_firmware tbl version_norm with
  | some cached => cached.downloaded == 1
  | none => false

/-- The early-return decision of `get_or_download_firmware`:
`existing = find_firmware(version_code); if existing and
existing.encrypted_file_path.exists(): return existing`. -/
inductive DownloadDecision where
  | returnExisting (rec : FirmwareRecord)
  | download
  deriving DecidableEq, Repr

/-- Whether `get_or_download_firmware` returns the stored record without
downloading, for a given firmware table and set of existing files. -/
def get_or_download_decision (fwDir : List Char) (files : List (List Char))
    (tbl : List FirmwareRecord) (version_code : List Char) : DownloadDecision :=
  match find_firmware tbl version_code with
  | some existing =>
    if encrypted_file_path fwDir existing ∈ files then .returnExisting existing
    else .download
  | none => .download

/-- The two files the download engine touches: the `.part` file and the
final encrypted file (`none` = the file does not exist). -/
structure DownloadFS where
  part : Option (List Nat)
  enc : Option (List Nat)
  deriving DecidableEq, Repr

/-- Result of the download steps 3–4 of `get_or_download_firmware`: either
the finalized file plus the persisted record, or the `DownloadError` size
mismatch with the files as left on disk. -/
inductive DownloadOutcome where
  | ok (fs : DownloadFS) (rec : FirmwareRecord)
  | sizeMismatch (got expected : Nat) (fs : DownloadFS)
  deriving DecidableEq, Repr

/-- `start = part_path.stat().st_size if (resume and part_path.exists())
else 0`. -/
def dlStart (resume : Bool) (fs : DownloadFS) : Nat :=
  if resume && fs.part.isSome then (fs.part.getD []).length else 0

/-- The bytes already in the part file when it is opened: append mode keeps
them when `start > 0`, write mode truncates. -/
def dlBase (resume : Bool) (fs : DownloadFS) : List Nat :=
  if 0 < dlStart resume fs then fs.part.getD [] else []

/-- The chunk-writing loop: skip empty chunks, append each chunk to the part
file and add its length to the running total. -/
def downloadWriteLoop : List (List Nat) → List Nat → Nat → List Nat × Nat
  | [], content, written => (content, written)
  | chunk :: rest, content, written =>
    if chunk = [] then downloadWriteLoop rest content written
    else downloadWriteLoop rest (content ++ chunk) (written + chunk.length)

/-- Steps 3–4 of `get_or_download_firmware` once the response stream is
exhausted: write all chunks after the resume offset, require
`written == info.size_bytes` (else `DownloadError`, leaving the part file),
atomically rename the part file to the final path and persist the record
with `downloaded=1`. -/
def download_stream (resume : Bool) (fs : DownloadFS) (chunks : List (List Nat))
    (version_norm filename path logic latest : List Char) (expected : Nat) :
    DownloadOutcome :=
  let res := downloadWriteLoop chunks (dlBase resume fs) (dlStart resume fs)
  if res.2 ≠ expected then
    .sizeMismatch res.2 expected { fs with part := some res.1 }
  else
    .ok { part := none, enc := some res.1 }
      {
        version_code := version_norm, filename := filename, path := path,
        size_bytes := expected, logic_value_factory := logic,
        latest_fw_version := latest, downloaded := 1, decrypted := 0,
        extracted := 0 }

/-- The repository-plus-filesystem state over which `cleanup_repository`
runs: the firmware table and the set of existing file paths. -/
structure CleanupState where
  records : List FirmwareRecord
  files : List (List Char)
  deriving DecidableEq, Repr

/-- The running counters of `cleanup_repository`. -/
structure CleanupStats where
  total_records : Nat
  missing_encrypted : Nat
  decrypted_deleted : Nat
  records_deleted : Nat
  deriving DecidableEq, Repr

/-- One iteration of the `cleanup_repository` loop over a record: when the
encrypted file is missing, delete the decrypted file if it exists and delete
the database row. -/
def cleanup_step (fwDir decDir : List Char) (st : CleanupState)
    (stats : CleanupStats) (rec : FirmwareRecord) : CleanupState × CleanupStats :=
  let stats1 := { stats with total_records := stats.total_records + 1 }
  if encrypted_file_path fwDir rec ∈ st.files then (st, stats1)
  else
    let stats2 := { stats1 with missing_encrypted := stats1.missing_encrypted + 1 }
    let decP := decrypted_file_path decDir rec
    let fs2 :=
      if decP ∈ st.files then
        (st.files.filter fun p => !(p == decP),
         { stats2 with decrypted_deleted := stats2.decrypted_deleted + 1 })
      else (st.files, stats2)
    ({ records := delete_firmware st.records rec.version_code, files := fs2.1 },
     { fs2.2 with records_deleted := fs2.2.records_deleted + 1 })

/-- The loop of `cleanup_repository` over the materialized record list. -/
def cleanup_run (fwDir decDir : List Char) :
    List FirmwareRecord → CleanupState → CleanupStats → CleanupState × CleanupStats
  | [], st, stats => (st, stats)
  | r :: rs, st, stats =>
    let step := cleanup_step fwDir decDir st stats r
    cleanup_run fwDir decDir rs step.1 step.2

/-- `cleanup_repository()` from `download/service.py`: materialize
`list_firmware()`, then run the per-record loop with zeroed statistics. -/
def cleanup_repository (fwDir decDir : List Char) (st : CleanupState) :
    CleanupState × CleanupStats :=
  cleanup_run fwDir decDir st.records st ⟨0, 0, 0, 0⟩

/-! ## `download/imei_repository.py` : audit-event upsert -/

/-- A row of the `imei_log` table. -/
structure IMEIEvent where
  session_id : String
  imei : String
  model : String
  csc : String
  version_code : String
  fota_version : Option String
  serial_number : Option String
  lock_status : Option String
  aid : Option String
  cc : Option String
  status_fus : String
  status_upgrade : String
  created_at : String
  updated_at : String
  upgrade_at : Option String
  deriving DecidableEq, Repr

/-- The keyword arguments of `upsert_imei_event`, with the source's default
values for the optional parameters. -/
structure ImeiArgs where
  session_id : String
  imei : String
  model : String
  csc : String
  version_code : String
  fota_version : Option String := none
  serial_number : Option String := none
  lock_status : Option String := none
  aid : Option String := none
  cc : Option String := none
  status_fus : String := "unknown"
  status_upgrade : String := "unknown"
  upgrade_at : Option String := none
  deriving DecidableEq, Repr

/-- The row matching the `UNIQUE(session_id, imei)` key, if any. -/
def findImeiRow (tbl : List IMEIEvent) (sid imei : String) : Option IMEIEvent :=
  tbl.find? fun r => r.session_id == sid && r.imei == imei

/-- The `DO UPDATE SET` clause of `upsert_imei_event`: every mutable column
and `updated_at` take the excluded row's values; `created_at` is kept. -/
def updRow (r : IMEIEvent) (a : ImeiArgs) (now : String) : IMEIEvent :=
  { r with
    model := a.model, csc := a.csc, version_code := a.version_code,
    fota_version := a.fota_version, serial_number := a.serial_number,
    lock_status := a.lock_status, aid := a.aid, cc := a.cc,
    status_fus := a.status_fus, status_upgrade := a.status_upgrade,
    updated_at := now, upgrade_at := a.upgrade_at }

/-- `upsert_imei_event(...)` from `download/imei_repository.py`: insert a new
row with `created_at = updated_at = now`, or on conflict on
`(session_id, imei)` update every mutable column (and `updated_at`) to the
excluded row's values, keeping `created_at`. -/
def upsert_imei_event (tbl : List IMEIEvent) (a : ImeiArgs) (now : String) :
    List IMEIEvent :=
  if tbl.any fun r => r.session_id == a.session_id && r.imei == a.imei then
    tbl.map fun r =>
      if r.session_id == a.session_id && r.imei == a.imei then updRow r a now
      else r
  else
    tbl ++ [{
      session_id := a.session_id, imei := a.imei, model := a.model,
      csc := a.csc, version_code := a.version_code,
      fota_version := a.fota_version, serial_number := a.serial_number,
      lock_status := a.lock_status, aid := a.aid, cc := a.cc,
      status_fus := a.status_fus, status_upgrade := a.status_upgrade,
      created_at := now, updated_at := now, upgrade_at := a.upgrade_at }]

/-! ## Concrete inputs used by witnesses and counterexamples -/

/-- A firmware row with `downloaded = 1` whose encrypted file will be absent. -/
def recCex : FirmwareRecord :=
  { version_code := "A/B/C/A".data, filename := "f.zip.enc4".data,
    path := "p/".data, size_bytes := 16, logic_value_factory := "G".data,
    latest_fw_version := "L".data, downloaded := 1, decrypted := 0,
    extracted := 0 }

/-- An inform response with `Status = 200` and all five required fields
present and non-empty, but a non-integer `BINARY_BYTE_SIZE`. -/
def informCex : InformXml :=
  { status := some "200".data, latest_fw_version := some "L1".data,
    logic_value_factory := some "G1".data, binary_name := some "f.zip.enc4".data,
    binary_byte_size := some "abc".data, model_path := some "p/".data }

/-- A firmware row whose encrypted file exists. -/
def cleanupRecA : FirmwareRecord :=
  { version_code := "A/B/C/A".data, filename := "a.zip.enc4".data,
    path := "p/".data, size_bytes := 16, logic_value_factory := "G".data,
    latest_fw_version := "L".data, downloaded := 1, decrypted := 1,
    extracted := 1 }

/-- A firmware row whose encrypted file was deleted but whose decrypted
sibling still exists. -/
def cleanupRecB : FirmwareRecord :=
  { version_code := "D/E/F/D".data, filename := "b.zip.enc4".data,
    path := "p/".data, size_bytes := 16, logic_value_factory := "G".data,
    latest_fw_version := "L".data, downloaded := 1, decrypted := 1,
    extracted := 0 }

/-- The reconciliation scenario: two rows, the first row's encrypted file and
the second row's decrypted sibling on disk. -/
def cleanupStCex : CleanupState :=
  { records := [cleanupRecA, cleanupRecB],
    files := ["fw/a.zip.enc4".data, "dec/b.zip".data] }

/-- An earlier audit row for session `"s"` and IMEI `"i"` with all optional
fields populated. -/
def imeiRow0 : IMEIEvent :=
  { session_id := "s", imei := "i", model := "m0", csc := "c0",
    version_code := "v0", fota_version := some "f0",
    serial_number := some "sn0", lock_status := some "lk0",
    aid := some "a0", cc := some "cc0", status_fus := "unknown",
    status_upgrade := "unknown", created_at := "t0", updated_at := "t0",
    upgrade_at := some "u0" }

/-- A later upsert for the same `(session_id, imei)` that omits every
optional field, as the FUS-error path of `download_and_decrypt` does. -/
def imeiArgs1 : ImeiArgs :=
  { session_id := "s", imei := "i", model := "m0", csc := "c0",
    version_code := "v0", fota_version := some "f1",
    status_fus := "error", status_upgrade := "unknown" }

end Nanosamfw

namespace Nanosamfw

/-! ## Theorems for claims C4 and C5 -/

/-- Helper: every character of `KEY_1` used by `derive_key` is ASCII, so its
UTF-8 encoding is one byte. -/
theorem charUtf8_KEY_1_length : ∀ j, j < 16 → (charUtf8 (KEY_1.getD j ' ')).length = 1 := by
  decide

/-- Helper: the UTF-8 encoding of `KEY_2` is 16 bytes. -/
theorem encodeUtf8_KEY_2_length : (encodeUtf8 KEY_2).length = 16 := by
  decide

/-- Helper: every character of `KEY_2` is ASCII. -/
theorem charUtf8_KEY_2_ascii : ∀ c ∈ KEY_2, (charUtf8 c).length = 1 := by
  decide

/-- Helper: a string of one-byte characters UTF-8-encodes to one byte per
character. -/
theorem encodeUtf8_length_of_ascii (l : List Char)
    (h : ∀ c ∈ l, (charUtf8 c).length = 1) : (encodeUtf8 l).length = l.length := by
  induction l with
  | nil => rfl
  | cons c t ih =>
    have hc : (charUtf8 c).length = 1 := h c (List.mem_cons_self c t)
    have ht : (encodeUtf8 t).length = t.length := ih fun x hx => h x (List.mem_cons_of_mem c hx)
    simp [encodeUtf8, List.flatMap_cons] at ht ⊢
    omega

/-- Claim C4 (amended): for every nonce string of at least 16 characters,
`derive_key` succeeds and returns a 32-byte key consisting of the 16
characters `KEY_1[ord(nonce[i]) mod 16]` for `i` in `0..16`, concatenated
with the fixed constant `KEY_2`. -/
theorem derive_key_amended (nonce : List Char) (h : 16 ≤ nonce.length) :
    ∃ k, derive_key nonce = some k ∧
      k = encodeUtf8
        (((List.range 16).map fun i => KEY_1.getD ((nonce.getD i ' ').toNat % 16) ' ')
          ++ KEY_2) ∧
      k.length = 32 := by
  refine ⟨_, by simp [derive_key, Nat.not_lt.mpr h], rfl, ?_⟩
  have hone : ∀ c ∈ ((List.range 16).map fun i =>
      KEY_1.getD ((nonce.getD i ' ').toNat % 16) ' ') ++ KEY_2, (charUtf8 c).length = 1 := by
    intro c hc
    rcases List.mem_append.mp hc with hl | hr
    · obtain ⟨i, _, rfl⟩ := List.mem_map.mp hl
      exact charUtf8_KEY_1_length _ (Nat.mod_lt _ (by norm_num))
    · exact charUtf8_KEY_2_ascii c hr
  rw [encodeUtf8_length_of_ascii _ hone]
  simp [KEY_2]

/-- Witness for C4's amended theorem at the concrete nonce of 16 `'0'`
characters. -/
theorem derive_key_amended_witness :
    16 ≤ (List.replicate 16 '0').length ∧
      ∃ k, derive_key (List.replicate 16 '0') = some k ∧
        k = encodeUtf8
          (((List.range 16).map fun i =>
              KEY_1.getD (((List.replicate 16 '0').getD i ' ').toNat % 16) ' ')
            ++ KEY_2) ∧
        k.length = 32 :=
  ⟨by decide, derive_key_amended (List.replicate 16 '0') (by decide)⟩

/-- Claim C4 counterexample: at the 16-character nonce `"0000000000000000"`,
`derive_key` returns a key of 32 bytes, not 48 bytes as the claim states. -/
theorem derive_key_not_48_bytes :
    (derive_key (List.replicate 16 '0')).isSome = true ∧
      ((derive_key (List.replicate 16 '0')).getD []).length = 32 ∧
      ((derive_key (List.replicate 16 '0')).getD []).length ≠ 48 := by
  refine ⟨by decide, ?_, ?_⟩ <;> decide

/-- Claim C5: `logic_check(input, nonce)` fails iff `len(input) < 16`; for
every input of length at least 16 and every nonce it returns the string whose
`j`-th character is `input[ord(nonce[j]) & 0x0F]`, each index being in range. -/
theorem logic_check_spec (inp nonce : List Char) :
    ((logic_check inp nonce).isOk = false ↔ inp.length < 16) ∧
      (16 ≤ inp.length →
        logic_check inp nonce = .ok (nonce.map fun c => inp.getD (c.toNat &&& 0xF) ' ') ∧
        ∀ c : Char, c.toNat &&& 0xF < inp.length) := by
  constructor
  · unfold logic_check
    by_cases h : inp.length < 16 <;> simp [h, Except.isOk, Except.toBool]
  · intro h
    constructor
    · unfold logic_check
      simp [Nat.not_lt.mpr h]
    · intro c
      calc c.toNat &&& 0xF ≤ 0xF := Nat.and_le_right
        _ < 16 := by norm_num
        _ ≤ inp.length := h

/-! ## Theorems for claim C6 -/

/-- Helper: splitting never yields an empty list of fragments. -/
theorem splitOnChar_ne_nil (sep : Char) (s : List Char) : splitOnChar sep s ≠ [] := by
  cases s with
  | nil => simp [splitOnChar]
  | cons c rest =>
    by_cases h : c = sep
    · simp [splitOnChar, h]
    · simp only [splitOnChar, if_neg h]
      cases splitOnChar sep rest <;> simp

/-- Helper: no fragment produced by splitting contains the separator. -/
theorem splitOnChar_not_mem (sep : Char) (s : List Char) :
    ∀ p ∈ splitOnChar sep s, sep ∉ p := by
  induction s with
  | nil => intro p hp; simp [splitOnChar] at hp; simp [hp]
  | cons c rest ih =>
    intro p hp
    by_cases h : c = sep
    · simp only [splitOnChar, if_pos h] at hp
      rcases List.mem_cons.mp hp with rfl | hmem
      · simp
      · exact ih p hmem
    · simp only [splitOnChar, if_neg h] at hp
      cases hs : splitOnChar sep rest with
      | nil => exact absurd hs (splitOnChar_ne_nil sep rest)
      | cons q t =>
        rw [hs] at hp
        rcases List.mem_cons.mp hp with rfl | hmem
        · intro hx
          rcases List.mem_cons.mp hx with rfl | hq
          · exact h rfl
          · exact ih q (hs ▸ List.mem_cons_self q t) hq
        · exact ih p (hs ▸ List.mem_cons_of_mem q hmem)

/-- Helper: splitting a separator-free string yields that single fragment. -/
theorem splitOnChar_of_not_mem (sep : Char) (s : List Char) (h : sep ∉ s) :
    splitOnChar sep s = [s] := by
  induction s with
  | nil => rfl
  | cons c rest ih =>
    have hc : ¬(c = sep) := fun hceq => h (hceq ▸ List.mem_cons_self c rest)
    have hrest : sep ∉ rest := fun hx => h (List.mem_cons_of_mem c hx)
    simp only [splitOnChar, if_neg hc, ih hrest]

/-- Helper: splitting distributes over a separator between a separator-free
head and an arbitrary tail. -/
theorem splitOnChar_append_cons (sep : Char) (a b : List Char) (h : sep ∉ a) :
    splitOnChar sep (a ++ sep :: b) = a :: splitOnChar sep b := by
  induction a with
  | nil => simp [splitOnChar]
  | cons x a' ih =>
    have hx : ¬(x = sep) := fun hxe => h (hxe ▸ List.mem_cons_self x a')
    have ha' : sep ∉ a' := fun hm => h (List.mem_cons_of_mem x hm)
    show splitOnChar sep (x :: (a' ++ sep :: b)) = (x :: a') :: splitOnChar sep b
    simp only [splitOnChar, if_neg hx]
    rw [ih ha']

/-- Helper: splitting is a left inverse of joining for non-empty lists of
separator-free fragments. -/
theorem splitOnChar_joinChar (sep : Char) (ps : List (List Char)) (hne : ps ≠ [])
    (h : ∀ p ∈ ps, sep ∉ p) : splitOnChar sep (joinChar sep ps) = ps := by
  induction ps with
  | nil => exact absurd rfl hne
  | cons p t ih =>
    cases t with
    | nil => exact splitOnChar_of_not_mem sep p (h p (List.mem_cons_self p []))
    | cons q t' =>
      have hp : sep ∉ p := h p (List.mem_cons_self p (q :: t'))
      show splitOnChar sep (p ++ sep :: joinChar sep (q :: t')) = p :: q :: t'
      rw [splitOnChar_append_cons sep p _ hp]
      rw [ih (by simp) fun x hx => h x (List.mem_cons_of_mem p hx)]

/-- Helper: `normFix` fails exactly on fewer than three parts. -/
theorem normFix_eq_some (l : List (List Char)) (h : ¬l.length < 3) :
    normFix l = some (if l.getD 2 [] = [] then l.set 2 (l.headD []) else l) := by
  simp [normFix, h]

/-- Helper: a successful `normFix` preserves the number of parts, and needs
at least three of them. -/
theorem normFix_length (l qs : List (List Char)) (h : normFix l = some qs) :
    qs.length = l.length ∧ 3 ≤ l.length := by
  by_cases hl : l.length < 3
  · simp [normFix, hl] at h
  · rw [normFix_eq_some l hl] at h
    injection h with h
    subst h
    constructor
    · split
      · exact List.length_set l 2 _
      · rfl
    · omega

/-- Helper: every fragment of a successful `normFix` output is a fragment of
the input or the input's first fragment. -/
theorem normFix_mem (l qs : List (List Char)) (h : normFix l = some qs) :
    ∀ p ∈ qs, p ∈ l ∨ p = l.headD [] := by
  by_cases hl : l.length < 3
  · simp [normFix, hl] at h
  · rw [normFix_eq_some l hl] at h
    injection h with h
    subst h
    intro p hp
    split at hp
    · rcases List.mem_or_eq_of_mem_set hp with hm | rfl
      · exact Or.inl hm
      · exact Or.inr rfl
    · exact Or.inl hp

/-- Helper: the `parts[2]` fix is a no-op when applied a second time. -/
theorem normFix_stable (l qs : List (List Char)) (h : normFix l = some qs) :
    (if qs.getD 2 [] = [] then qs.set 2 (qs.headD []) else qs) = qs := by
  by_cases hl : l.length < 3
  · simp [normFix, hl] at h
  · rw [normFix_eq_some l hl] at h
    injection h with h
    rcases l with _ | ⟨x, _ | ⟨y, _ | ⟨z, u⟩⟩⟩ <;> simp at hl
    by_cases hz : z = []
    · subst hz
      rw [if_pos (by simp [List.getD])] at h
      simp only [List.headD, List.set] at h
      subst h
      by_cases hx : x = []
      · subst hx; simp
      · simp [List.getD, hx]
    · rw [if_neg (by simpa [List.getD] using hz)] at h
      subst h
      rw [if_neg (by simpa [List.getD] using hz)]

/-- Helper: `normParts` is idempotent on its successful outputs. -/
theorem normParts_idem (ps qs : List (List Char)) (h : normParts ps = some qs) :
    normParts qs = some qs := by
  unfold normParts at h
  obtain ⟨hlen, h3⟩ := normFix_length _ _ h
  have h4 : 4 ≤ qs.length := by
    rw [hlen]
    split at hlen <;> rename_i hc <;> split at h3 <;> simp_all <;> omega
  have hq3 : ¬(qs.length = 3) := by omega
  unfold normParts
  rw [if_neg hq3, normFix_eq_some qs (by omega), normFix_stable _ _ h]

/-- Helper: `normalize_vercode` splits, normalizes the parts and joins, and the
join can be split back because fragments are separator-free. -/
theorem normalize_vercode_split (s r : List Char) (h : normalize_vercode s = some r) :
    ∃ qs, normParts (splitOnChar '/' s) = some qs ∧ r = joinChar '/' qs ∧
      splitOnChar '/' r = qs := by
  obtain ⟨qs, hqs, hr⟩ := Option.map_eq_some'.mp h
  refine ⟨qs, hqs, hr.symm, ?_⟩
  obtain ⟨hlen, h3⟩ := normFix_length _ _ hqs
  have hps : splitOnChar '/' s ≠ [] := splitOnChar_ne_nil '/' s
  have hlen4 : 1 ≤ qs.length := by
    rw [hlen]; split at hlen <;> simp_all <;> omega
  have hmem : ∀ p ∈ qs, '/' ∉ p := by
    intro p hp
    have hpsrc := normFix_mem _ _ hqs p hp
    have hd : (if (splitOnChar '/' s).length = 3 then
        splitOnChar '/' s ++ [(splitOnChar '/' s).headD []]
      else splitOnChar '/' s).headD [] = (splitOnChar '/' s).headD [] := by
      split
      · cases hsp : splitOnChar '/' s with
        | nil => exact absurd hsp hps
        | cons a t => simp
      · rfl
    have hdm : (splitOnChar '/' s).headD [] ∈ splitOnChar '/' s := by
      cases hsp : splitOnChar '/' s with
      | nil => exact absurd hsp hps
      | cons a t => simp
    rcases hpsrc with hin | heq
    · split at hin
      · rcases List.mem_append.mp hin with hm | hm
        · exact splitOnChar_not_mem '/' s p hm
        · rw [List.mem_singleton] at hm
          exact hm ▸ splitOnChar_not_mem '/' s _ hdm
      · exact splitOnChar_not_mem '/' s p hin
    · rw [heq, hd]
      exact splitOnChar_not_mem '/' s _ hdm
  rw [hr.symm]
  exact splitOnChar_joinChar '/' qs (by intro hq; rw [hq] at hlen4; simp at hlen4) hmem

/-- Claim C6 counterexample: on the five-part input `"A/B/C/D/E"`,
`normalize_vercode` returns the input unchanged, which has five
`/`-separated parts, not four. -/
theorem normalize_vercode_five_parts :
    normalize_vercode "A/B/C/D/E".data = some "A/B/C/D/E".data ∧
      (splitOnChar '/' "A/B/C/D/E".data).length = 5 ∧
      (splitOnChar '/' "A/B/C/D/E".data).length ≠ 4 := by
  refine ⟨?_, ?_, ?_⟩ <;> decide

/-- Claim C6 (amended): `normalize_vercode` maps every version code with three
or four `/`-separated parts to exactly four parts — given three parts it
appends the first part as the fourth, and an empty third part is replaced by
the first part — and it is idempotent on every input on which it is defined. -/
theorem normalize_vercode_amended :
    (∀ s : List Char,
      (splitOnChar '/' s).length = 3 ∨ (splitOnChar '/' s).length = 4 →
      ∃ r, normalize_vercode s = some r ∧ (splitOnChar '/' r).length = 4 ∧
        ((splitOnChar '/' s).length = 3 →
          (splitOnChar '/' r).getD 3 [] = (splitOnChar '/' s).headD []) ∧
        ((splitOnChar '/' s).getD 2 [] = [] →
          (splitOnChar '/' r).getD 2 [] = (splitOnChar '/' s).headD []) ∧
        ((splitOnChar '/' s).getD 2 [] ≠ [] →
          (splitOnChar '/' r).getD 2 [] = (splitOnChar '/' s).getD 2 [])) ∧
    (∀ s r : List Char, normalize_vercode s = some r → normalize_vercode r = some r) := by
  constructor
  · intro s hlen
    have h3 : 3 ≤ (splitOnChar '/' s).length := by omega
    have hqs : ∃ qs, normParts (splitOnChar '/' s) = some qs := by
      unfold normParts
      rw [normFix_eq_some]
      · exact ⟨_, rfl⟩
      · split <;> simp <;> omega
    obtain ⟨qs, hqs⟩ := hqs
    have hv : normalize_vercode s = some (joinChar '/' qs) := by
      simp [normalize_vercode, hqs]
    refine ⟨joinChar '/' qs, hv, ?_⟩
    obtain ⟨qs', hqs', hr', hsplit'⟩ := normalize_vercode_split s _ hv
    rw [hqs] at hqs'
    obtain rfl : qs = qs' := by injection hqs'
    rw [hsplit']
    -- Compute the parts shape in each case.
    rcases hps : splitOnChar '/' s with _ | ⟨a, _ | ⟨b, _ | ⟨c, _ | ⟨d, u⟩⟩⟩⟩ <;>
      rw [hps] at hlen <;> simp at hlen
    · -- three parts [a, b, c]
      rw [hps] at hqs
      by_cases hc : c = []
      · subst hc
        rw [show normParts [a, b, []] = some [a, b, a, a] by
          simp [normParts, normFix, List.getD]] at hqs
        obtain rfl : qs = [a, b, a, a] := by injection hqs with hh; exact hh.symm
        simp [List.getD]
      · rw [show normParts [a, b, c] = some [a, b, c, a] by
          simp [normParts, normFix, List.getD, hc]] at hqs
        obtain rfl : qs = [a, b, c, a] := by injection hqs with hh; exact hh.symm
        simp [List.getD, hc]
    · -- four parts [a, b, c, d] (and u = [] from the length hypothesis)
      obtain rfl : u = [] := by simpa using hlen
      rw [hps] at hqs
      by_cases hc : c = []
      · subst hc
        rw [show normParts [a, b, [], d] = some [a, b, a, d] by
          simp [normParts, normFix, List.getD]] at hqs
        obtain rfl : qs = [a, b, a, d] := by injection hqs with hh; exact hh.symm
        simp [List.getD]
      · rw [show normParts [a, b, c, d] = some [a, b, c, d] by
          simp [normParts, normFix, List.getD, hc]] at hqs
        obtain rfl : qs = [a, b, c, d] := by injection hqs with hh; exact hh.symm
        simp [List.getD, hc]
  · intro s r h
    obtain ⟨qs, hqs, hr, hsplit⟩ := normalize_vercode_split s r h
    have hidem := normParts_idem _ _ hqs
    subst hr
    unfold normalize_vercode
    rw [hsplit, hidem]
    rfl

/-- Witness for C6's amended theorem at the three-part input `"A/B/C"` and for
idempotence at that input. -/
theorem normalize_vercode_amended_witness :
    ((splitOnChar '/' "A/B/C".data).length = 3 ∨ (splitOnChar '/' "A/B/C".data).length = 4) ∧
      (∃ r, normalize_vercode "A/B/C".data = some r ∧ (splitOnChar '/' r).length = 4 ∧
        ((splitOnChar '/' "A/B/C".data).length = 3 →
          (splitOnChar '/' r).getD 3 [] = (splitOnChar '/' "A/B/C".data).headD []) ∧
        ((splitOnChar '/' "A/B/C".data).getD 2 [] = [] →
          (splitOnChar '/' r).getD 2 [] = (splitOnChar '/' "A/B/C".data).headD []) ∧
        ((splitOnChar '/' "A/B/C".data).getD 2 [] ≠ [] →
          (splitOnChar '/' r).getD 2 [] = (splitOnChar '/' "A/B/C".data).getD 2 [])) ∧
      normalize_vercode "A/B/C/A".data = some "A/B/C/A".data :=
  ⟨by decide, normalize_vercode_amended.1 "A/B/C".data (by decide),
    normalize_vercode_amended.2 "A/B/C".data "A/B/C/A".data (by decide)⟩

/-! ## Theorems for claim C3 -/

/-- Helper: unfolding `ecbDecrypt` on a non-empty input. -/
theorem ecbDecrypt_ne_nil (f : List Nat → List Nat) (l : List Nat) (h : l ≠ []) :
    ecbDecrypt f l = f (l.take 16) ++ ecbDecrypt f (l.drop 16) := by
  cases l with
  | nil => exact absurd rfl h
  | cons b rest => rw [ecbDecrypt]

/-- Helper: `ecbDecrypt` distributes over appending at a block boundary. -/
theorem ecbDecrypt_append (f : List Nat → List Nat) (a b : List Nat)
    (h : a.length % 16 = 0) : ecbDecrypt f (a ++ b) = ecbDecrypt f a ++ ecbDecrypt f b := by
  have H : ∀ n (a : List Nat), a.length ≤ n → a.length % 16 = 0 →
      ecbDecrypt f (a ++ b) = ecbDecrypt f a ++ ecbDecrypt f b := by
    intro n
    induction n with
    | zero =>
      intro a ha _
      obtain rfl : a = [] := List.length_eq_zero.mp (by omega)
      simp [ecbDecrypt]
    | succ n ih =>
      intro a ha hmod
      rcases eq_or_ne a [] with rfl | hne
      · simp [ecbDecrypt]
      · have h16 : 16 ≤ a.length := by
          have hz : a.length ≠ 0 := fun hz => hne (List.length_eq_zero.mp hz)
          omega
        have hab : a ++ b ≠ [] := by simp [hne]
        rw [ecbDecrypt_ne_nil f (a ++ b) hab, ecbDecrypt_ne_nil f a hne]
        rw [List.take_append_of_le_length h16, List.drop_append_of_le_length h16]
        rw [ih (a.drop 16) (by simp; omega) (by simp; omega)]
        simp
  exact H (a.length) a le_rfl h

/-- Helper: chunking is non-trivial on non-empty input with positive chunk
size. -/
theorem chunksOf_ne_nil (n : Nat) (l : List Nat) (hn : n ≠ 0) (hl : l ≠ []) :
    chunksOf n l = l.take n :: chunksOf n (l.drop n) := by
  cases l with
  | nil => exact absurd rfl hl
  | cons b rest => rw [chunksOf]; simp [hn]

/-- Helper: `tailUnpadJoin` on a cons with non-empty tail. -/
theorem tailUnpadJoin_cons (d : List Nat) (ds : List (List Nat)) (h : ds ≠ []) :
    tailUnpadJoin (d :: ds) = d ++ tailUnpadJoin ds := by
  cases ds with
  | nil => exact absurd rfl h
  | cons e t => rfl

/-- Helper: the read/decrypt loop computes chunkwise ECB decryption with the
tail chunk unpadded, provided the declared total matches the stream length. -/
theorem decryptLoop_eq (f : List Nat → List Nat) (cs total : Nat) (hcs : 0 < cs) :
    ∀ rest pos, pos + rest.length = total →
      decryptLoop f cs total pos rest =
        tailUnpadJoin ((chunksOf cs rest).map (ecbDecrypt f)) := by
  have H : ∀ n (rest : List Nat) pos, rest.length ≤ n → pos + rest.length = total →
      decryptLoop f cs total pos rest =
        tailUnpadJoin ((chunksOf cs rest).map (ecbDecrypt f)) := by
    intro n
    induction n with
    | zero =>
      intro rest pos hn _
      obtain rfl : rest = [] := List.length_eq_zero.mp (by omega)
      rw [decryptLoop]
      simp [chunksOf, tailUnpadJoin]
    | succ n ih =>
      intro rest pos hn htot
      rcases eq_or_ne rest [] with rfl | hne
      · rw [decryptLoop]
        simp [chunksOf, tailUnpadJoin]
      · have htake : rest.take cs ≠ [] := by
          intro h0
          rw [List.take_eq_nil_iff] at h0
          rcases h0 with h0 | h0
          all_goals first
            | omega
            | exact hne h0
        rw [decryptLoop, dif_neg htake]
        rw [chunksOf_ne_nil cs rest (by omega) hne]
        by_cases hlast : rest.length ≤ cs
        · -- final chunk: the whole of `rest`
          have htr : rest.take cs = rest := List.take_of_length_le hlast
          have hdr : rest.drop cs = [] := List.drop_eq_nil_of_le hlast
          rw [htr, hdr]
          rw [if_pos (by omega)]
          rw [decryptLoop]
          simp [chunksOf, tailUnpadJoin]
        · -- interior chunk: strictly before the end of the stream
          push_neg at hlast
          have hlen : (rest.take cs).length = cs := List.length_take_of_le (by omega)
          rw [if_neg (by omega)]
          rw [ih (rest.drop cs) (pos + (rest.take cs).length) (by simp; omega)
            (by simp; omega)]
          have hdne : rest.drop cs ≠ [] := by
            intro hd
            have hld := List.length_drop cs rest
            rw [hd] at hld
            simp at hld
            omega
          have hchne : chunksOf cs (rest.drop cs) ≠ [] := by
            rw [chunksOf_ne_nil cs (rest.drop cs) (by omega) hdne]
            simp
          rw [List.map_cons]
          rw [tailUnpadJoin_cons _ _ (fun hm => hchne (List.map_eq_nil_iff.mp hm))]
  exact fun rest pos h => H rest.length rest pos le_rfl h

/-- Helper: the chunkwise ECB decryptions concatenate to the ECB decryption
of the whole input when the chunk size and input length are multiples of 16. -/
theorem chunksOf_ecb_join (f : List Nat → List Nat) (cs : Nat) (hcs : 0 < cs)
    (hcs16 : cs % 16 = 0) :
    ∀ input : List Nat, input.length % 16 = 0 →
      ((chunksOf cs input).map (ecbDecrypt f)).flatten = ecbDecrypt f input := by
  have H : ∀ n (input : List Nat), input.length ≤ n → input.length % 16 = 0 →
      ((chunksOf cs input).map (ecbDecrypt f)).flatten = ecbDecrypt f input := by
    intro n
    induction n with
    | zero =>
      intro input hn _
      obtain rfl : input = [] := List.length_eq_zero.mp (by omega)
      simp [chunksOf, ecbDecrypt]
    | succ n ih =>
      intro input hn hmod
      rcases eq_or_ne input [] with rfl | hne
      · simp [chunksOf, ecbDecrypt]
      · rw [chunksOf_ne_nil cs input (by omega) hne]
        have htl : (input.take cs).length % 16 = 0 := by
          rw [List.length_take]
          rcases Nat.le_total cs input.length with h | h
          · rw [Nat.min_eq_left h]; exact hcs16
          · rw [Nat.min_eq_right h]; exact hmod
        rw [List.map_cons, List.flatten_cons]
        rw [ih (input.drop cs) (by simp; omega) (by simp; omega)]
        rw [← ecbDecrypt_append f _ _ htl, List.take_append_drop]
  exact fun input h => H input.length input le_rfl h

/-- Claim C3: `_decrypt_progress` fails with `InvalidBlockSize` iff the
declared total (the input length, as passed by `decrypt_file`) is not a
multiple of 16; otherwise it outputs every chunk's AES-ECB decryption
verbatim except the final chunk, which is PKCS#7-unpadded, and the chunk
decryptions concatenate to the ECB decryption of the whole input. -/
theorem decrypt_progress_spec (f : List Nat → List Nat) (input : List Nat)
    (cs : Nat) (hcs : 0 < cs) (hcs16 : cs % 16 = 0) :
    (decrypt_progress f input input.length cs = .error .invalidBlockSize ↔
      input.length % 16 ≠ 0) ∧
    (input.length % 16 = 0 →
      decrypt_progress f input input.length cs =
        .ok (tailUnpadJoin ((chunksOf cs input).map (ecbDecrypt f))) ∧
      ((chunksOf cs input).map (ecbDecrypt f)).flatten = ecbDecrypt f input) := by
  constructor
  · constructor
    · intro h hmod
      simp [decrypt_progress, hmod] at h
    · intro hmod
      simp [decrypt_progress, hmod]
  · intro hmod
    refine ⟨?_, chunksOf_ecb_join f cs hcs hcs16 input hmod⟩
    simp only [decrypt_progress, hmod]
    rw [if_neg (by omega)]
    rw [decryptLoop_eq f cs input.length hcs input 0 (by omega)]

/-- Witness for C3 at chunk size 16 and the 32-byte input of all-7 bytes,
with the identity standing for the AES block decryption. -/
theorem decrypt_progress_spec_witness :
    ((0 : Nat) < 16 ∧ (16 : Nat) % 16 = 0) ∧
      ((decrypt_progress id (List.replicate 32 7) (List.replicate 32 7).length 16 =
          .error .invalidBlockSize ↔ (List.replicate 32 7).length % 16 ≠ 0) ∧
        ((List.replicate 32 7).length % 16 = 0 →
          decrypt_progress id (List.replicate 32 7) (List.replicate 32 7).length 16 =
            .ok (tailUnpadJoin ((chunksOf 16 (List.replicate 32 7)).map (ecbDecrypt id))) ∧
          ((chunksOf 16 (List.replicate 32 7)).map (ecbDecrypt id)).flatten =
            ecbDecrypt id (List.replicate 32 7))) :=
  ⟨⟨by decide, by decide⟩,
    decrypt_progress_spec id (List.replicate 32 7) 16 (by decide) (by decide)⟩

/-- Witness for C5 at a concrete 16-character input and nonce `"AB"`. -/
theorem logic_check_spec_witness :
    (((logic_check "0123456789abcdef".data "AB".data).isOk = false ↔
        ("0123456789abcdef".data).length < 16) ∧
      (16 ≤ ("0123456789abcdef".data).length →
        logic_check "0123456789abcdef".data "AB".data =
          .ok (("AB".data).map fun c => ("0123456789abcdef".data).getD (c.toNat &&& 0xF) ' ') ∧
        ∀ c : Char, c.toNat &&& 0xF < ("0123456789abcdef".data).length)) :=
  logic_check_spec "0123456789abcdef".data "AB".data

/-! ## Theorems for claim C7 -/

/-- Helper: when the record's encrypted file exists, the cleanup step only
bumps the processed counter. -/
theorem cleanup_step_present (fwDir decDir : List Char) (st : CleanupState)
    (stats : CleanupStats) (rec : FirmwareRecord)
    (henc : encrypted_file_path fwDir rec ∈ st.files) :
    cleanup_step fwDir decDir st stats rec =
      (st, { stats with total_records := stats.total_records + 1 }) := by
  simp [cleanup_step, henc]

/-- Helper: when the record's encrypted file is missing, the cleanup step
deletes the row, and touches no file other than the record's decrypted
sibling. -/
theorem cleanup_step_missing (fwDir decDir : List Char) (st : CleanupState)
    (stats : CleanupStats) (rec : FirmwareRecord)
    (henc : encrypted_file_path fwDir rec ∉ st.files) :
    (cleanup_step fwDir decDir st stats rec).1.records =
      delete_firmware st.records rec.version_code ∧
    ∀ q, q ≠ decrypted_file_path decDir rec →
      (q ∈ (cleanup_step fwDir decDir st stats rec).1.files ↔ q ∈ st.files) := by
  by_cases hdec : decrypted_file_path decDir rec ∈ st.files
  · constructor
    · simp [cleanup_step, henc, hdec]
    · intro q hq
      simp only [cleanup_step, if_neg henc, if_pos hdec]
      simp only [List.mem_filter]
      constructor
      · exact fun h => h.1
      · intro h
        refine ⟨h, ?_⟩
        simp only [Bool.not_eq_true']
        exact beq_eq_false_iff_ne.mpr hq
  · constructor
    · simp [cleanup_step, henc, hdec]
    · intro q _
      simp [cleanup_step, henc, hdec]

/-- Helper: membership of any path that is no record's decrypted sibling is
invariant under the cleanup loop. -/
theorem cleanup_run_files (fwDir decDir : List Char) :
    ∀ (todo : List FirmwareRecord) (st : CleanupState) (stats : CleanupStats)
      (q : List Char), (∀ r ∈ todo, q ≠ decrypted_file_path decDir r) →
      (q ∈ (cleanup_run fwDir decDir todo st stats).1.files ↔ q ∈ st.files) := by
  intro todo
  induction todo with
  | nil =>
    intro st stats q _
    rw [cleanup_run]
  | cons r rs ih =>
    intro st stats q hq
    rw [cleanup_run]
    refine (ih _ _ q fun r2 hr2 => hq r2 (List.mem_cons_of_mem r hr2)).trans ?_
    by_cases henc : encrypted_file_path fwDir r ∈ st.files
    · rw [cleanup_step_present fwDir decDir st stats r henc]
    · exact (cleanup_step_missing fwDir decDir st stats r henc).2 q
        (hq r (List.mem_cons_self r rs))

/-- Helper: the cleanup loop deletes exactly the rows whose version code is
that of a traversed record whose encrypted file is missing from the initial
file set, provided no encrypted path of a traversed record coincides with a
decrypted path of another. -/
theorem cleanup_run_records (fwDir decDir : List Char) :
    ∀ (todo R : List FirmwareRecord) (files : List (List Char))
      (stats : CleanupStats),
      (∀ r ∈ todo, ∀ r2 ∈ todo,
        encrypted_file_path fwDir r ≠ decrypted_file_path decDir r2) →
      (cleanup_run fwDir decDir todo ⟨R, files⟩ stats).1.records =
        R.filter fun x =>
          !(decide (x.version_code ∈ (todo.filter fun r =>
            !(decide (encrypted_file_path fwDir r ∈ files))).map
              fun r => r.version_code)) := by
  intro todo
  induction todo with
  | nil =>
    intro R files stats _
    rw [cleanup_run]
    simp
  | cons r rs ih =>
    intro R files stats hd
    rw [cleanup_run]
    by_cases henc : encrypted_file_path fwDir r ∈ files
    · rw [cleanup_step_present fwDir decDir ⟨R, files⟩ stats r henc]
      rw [ih R files _ fun a ha b hb =>
        hd a (List.mem_cons_of_mem r ha) b (List.mem_cons_of_mem r hb)]
      rw [List.filter_cons_of_neg (by simp [henc])]
    · have hmiss := cleanup_step_missing fwDir decDir ⟨R, files⟩ stats r henc
      have hst : (cleanup_step fwDir decDir ⟨R, files⟩ stats r).1 =
          ⟨delete_firmware R r.version_code,
            (cleanup_step fwDir decDir ⟨R, files⟩ stats r).1.files⟩ := by
        rw [← hmiss.1]
      rw [hst]
      rw [ih (delete_firmware R r.version_code)
        (cleanup_step fwDir decDir ⟨R, files⟩ stats r).1.files _
        fun a ha b hb =>
          hd a (List.mem_cons_of_mem r ha) b (List.mem_cons_of_mem r hb)]
      have hfiles : (rs.filter fun r2 =>
          !(decide (encrypted_file_path fwDir r2 ∈
            (cleanup_step fwDir decDir ⟨R, files⟩ stats r).1.files))) =
          rs.filter fun r2 =>
            !(decide (encrypted_file_path fwDir r2 ∈ files)) := by
        refine List.filter_congr fun r2 hr2 => ?_
        have hne : encrypted_file_path fwDir r2 ≠ decrypted_file_path decDir r :=
          hd r2 (List.mem_cons_of_mem r hr2) r (List.mem_cons_self r rs)
        rw [decide_eq_decide.mpr (hmiss.2 _ hne)]
      rw [hfiles]
      rw [List.filter_cons_of_pos (by simp [henc]), List.map_cons]
      rw [delete_firmware, List.filter_filter]
      refine List.filter_congr fun x _ => ?_
      by_cases hxy : x.version_code = r.version_code
      · simp [hxy]
      · simp [List.mem_cons, hxy, beq_eq_false_iff_ne.mpr hxy]

/-- Helper: when every traversed record's encrypted file exists, the cleanup
loop changes nothing and only counts the processed records. -/
theorem cleanup_run_no_missing (fwDir decDir : List Char) :
    ∀ (todo : List FirmwareRecord) (st : CleanupState) (stats : CleanupStats),
      (∀ r ∈ todo, encrypted_file_path fwDir r ∈ st.files) →
      cleanup_run fwDir decDir todo st stats =
        (st, { stats with total_records := stats.total_records + todo.length }) := by
  intro todo
  induction todo with
  | nil =>
    intro st stats _
    rw [cleanup_run]
    simp
  | cons r rs ih =>
    intro st stats h
    rw [cleanup_run]
    rw [cleanup_step_present fwDir decDir st stats r (h r (List.mem_cons_self r rs))]
    rw [ih st _ fun x hx => h x (List.mem_cons_of_mem r hx)]
    have harith : stats.total_records + 1 + rs.length =
        stats.total_records + (r :: rs).length := by
      simp
      omega
    rw [harith]

/-- Claim C7: one `cleanup_repository` run deletes exactly the rows whose
encrypted file is absent; afterwards every remaining row's encrypted file
exists; and an immediate second run returns the same state and reports zero
missing files, zero deleted rows and zero deleted decrypted files.  The
hypotheses record that version codes are unique (the table's UNIQUE
constraint) and that encrypted and decrypted paths never coincide (they live
in distinct directories). -/
theorem cleanup_repository_spec (fwDir decDir : List Char) (st : CleanupState)
    (hd : ∀ r ∈ st.records, ∀ r2 ∈ st.records,
      encrypted_file_path fwDir r ≠ decrypted_file_path decDir r2)
    (hnodup : (st.records.map fun r => r.version_code).Nodup) :
    (cleanup_repository fwDir decDir st).1.records =
      st.records.filter (fun r => decide (encrypted_file_path fwDir r ∈ st.files)) ∧
    (∀ r ∈ (cleanup_repository fwDir decDir st).1.records,
      encrypted_file_path fwDir r ∈ (cleanup_repository fwDir decDir st).1.files) ∧
    cleanup_repository fwDir decDir ((cleanup_repository fwDir decDir st).1) =
      ((cleanup_repository fwDir decDir st).1,
        ⟨(cleanup_repository fwDir decDir st).1.records.length, 0, 0, 0⟩) := by
  have hrec : (cleanup_repository fwDir decDir st).1.records =
      st.records.filter
        (fun r => decide (encrypted_file_path fwDir r ∈ st.files)) := by
    unfold cleanup_repository
    have hrun := cleanup_run_records fwDir decDir st.records st.records st.files
      ⟨0, 0, 0, 0⟩ hd
    refine Eq.trans ?_ (hrun.trans (List.filter_congr fun x hx => ?_))
    · rfl
    · by_cases hex : encrypted_file_path fwDir x ∈ st.files
      · have hnot : ¬(x.version_code ∈ (st.records.filter fun r =>
            !(decide (encrypted_file_path fwDir r ∈ st.files))).map
              fun r => r.version_code) := by
          intro hmemv
          obtain ⟨y, hy, hyx⟩ := List.mem_map.mp hmemv
          obtain ⟨hymem, hyp⟩ := List.mem_filter.mp hy
          obtain rfl : y = x :=
            List.inj_on_of_nodup_map hnodup hymem hx hyx
          simp [hex] at hyp
        simp [hex, hnot]
      · have hmemv : x.version_code ∈ (st.records.filter fun r =>
            !(decide (encrypted_file_path fwDir r ∈ st.files))).map
              fun r => r.version_code :=
          List.mem_map.mpr ⟨x, List.mem_filter.mpr ⟨hx, by simp [hex]⟩, rfl⟩
        simp [hex, hmemv]
  have hfiles : ∀ r ∈ (cleanup_repository fwDir decDir st).1.records,
      encrypted_file_path fwDir r ∈ (cleanup_repository fwDir decDir st).1.files := by
    intro r hr
    rw [hrec] at hr
    obtain ⟨hmem, hp⟩ := List.mem_filter.mp hr
    have hex : encrypted_file_path fwDir r ∈ st.files := of_decide_eq_true hp
    have := cleanup_run_files fwDir decDir st.records st ⟨0, 0, 0, 0⟩
      (encrypted_file_path fwDir r)
      (fun r2 hr2 => hd r hmem r2 hr2)
    exact this.mpr hex
  refine ⟨hrec, hfiles, ?_⟩
  set st1 := (cleanup_repository fwDir decDir st).1 with hst1
  show cleanup_repository fwDir decDir st1 = (st1, ⟨st1.records.length, 0, 0, 0⟩)
  unfold cleanup_repository
  rw [cleanup_run_no_missing fwDir decDir st1.records st1 ⟨0, 0, 0, 0⟩ hfiles]
  simp

/-- Witness for C7 on the two-row scenario: one encrypted file present, one
deleted with a decrypted sibling on disk. -/
theorem cleanup_repository_spec_witness :
    (∀ r ∈ cleanupStCex.records, ∀ r2 ∈ cleanupStCex.records,
      encrypted_file_path "fw".data r ≠ decrypted_file_path "dec".data r2) ∧
    ((cleanupStCex.records.map fun r => r.version_code).Nodup) ∧
    ((cleanup_repository "fw".data "dec".data cleanupStCex).1.records =
      cleanupStCex.records.filter
        (fun r => decide (encrypted_file_path "fw".data r ∈ cleanupStCex.files)) ∧
    (∀ r ∈ (cleanup_repository "fw".data "dec".data cleanupStCex).1.records,
      encrypted_file_path "fw".data r ∈
        (cleanup_repository "fw".data "dec".data cleanupStCex).1.files) ∧
    cleanup_repository "fw".data "dec".data
        ((cleanup_repository "fw".data "dec".data cleanupStCex).1) =
      ((cleanup_repository "fw".data "dec".data cleanupStCex).1,
        ⟨(cleanup_repository "fw".data "dec".data
            cleanupStCex).1.records.length, 0, 0, 0⟩)) :=
  ⟨by decide, by decide,
    cleanup_repository_spec "fw".data "dec".data cleanupStCex (by decide) (by decide)⟩

/-! ## Theorems for claim C8 -/

/-- Helper: `requireText` succeeds exactly on a present, non-empty text. -/
theorem requireText_ok_iff (fld : Option (List Char)) (name : String)
    (t : List Char) : requireText fld name = .ok t ↔ fld = some t ∧ t ≠ [] := by
  cases fld with
  | none => simp [requireText]
  | some u =>
    by_cases hu : u = []
    · subst hu
      simp [requireText]
    · simp only [requireText, if_neg hu]
      constructor
      · intro h
        injection h with h
        subst h
        exact ⟨rfl, hu⟩
      · rintro ⟨h, _⟩
        injection h with h
        rw [h]

/-- Helper: `requireText` reports the missing field on an absent element or
empty text. -/
theorem requireText_missing (fld : Option (List Char)) (name : String)
    (h : fld = none ∨ fld = some []) :
    requireText fld name = .error (.missingField name) := by
  rcases h with rfl | rfl <;> simp [requireText]

/-- Claim C8 counterexample: an inform response whose Status text is `200`
and whose five required fields are all present and non-empty, but whose
`BINARY_BYTE_SIZE` text `"abc"` is not an integer: `parse_inform` does not
return an `InformInfo` — it raises an uncaught `ValueError` — so "fully
populated exactly when status 200 and fields present and non-empty" fails,
as does "any failure is BadStatus or MissingField". -/
theorem parse_inform_counterexample :
    (informCex.status = some "200".data ∧ pyInt "200".data = some 200 ∧
      informCex.latest_fw_version = some "L1".data ∧ "L1".data ≠ [] ∧
      informCex.logic_value_factory = some "G1".data ∧ "G1".data ≠ [] ∧
      informCex.binary_name = some "f.zip.enc4".data ∧ "f.zip.enc4".data ≠ [] ∧
      informCex.binary_byte_size = some "abc".data ∧ "abc".data ≠ [] ∧
      informCex.model_path = some "p/".data ∧ "p/".data ≠ []) ∧
    parse_inform informCex = .error (.valueError "BINARY_BYTE_SIZE") ∧
    (parse_inform informCex).isOk = false := by
  refine ⟨by decide, rfl, rfl⟩

/-- Claim C8 (amended): `parse_inform` returns a fully populated `InformInfo`
exactly when the Status text parses as the integer 200, the five required
fields are present and non-empty, and `BINARY_BYTE_SIZE` parses as an
integer; an integer Status other than 200 fails with `BadStatus` carrying the
code; a missing or empty field fails with `MissingField` naming the first
such field in check order; a non-integer Status or `BINARY_BYTE_SIZE` text
raises an uncaught `ValueError`. -/
theorem parse_inform_amended (x : InformXml) :
    ((∃ info, parse_inform x = .ok info) ↔
      ((∃ st, x.status = some st ∧ st ≠ [] ∧ pyInt st = some 200) ∧
        (∃ l, x.latest_fw_version = some l ∧ l ≠ []) ∧
        (∃ g, x.logic_value_factory = some g ∧ g ≠ []) ∧
        (∃ f, x.binary_name = some f ∧ f ≠ []) ∧
        (∃ sz k, x.binary_byte_size = some sz ∧ sz ≠ [] ∧ pyInt sz = some k) ∧
        (∃ p, x.model_path = some p ∧ p ≠ []))) ∧
    (∀ info, parse_inform x = .ok info →
      x.latest_fw_version = some info.latest_fw_version ∧
      x.logic_value_factory = some info.logic_value_factory ∧
      x.binary_name = some info.filename ∧
      x.model_path = some info.path ∧
      (∃ sz, x.binary_byte_size = some sz ∧ pyInt sz = some info.size_bytes)) ∧
    ((x.status = none ∨ x.status = some []) →
      parse_inform x = .error (.missingField "Status")) ∧
    (∀ st, x.status = some st → st ≠ [] → pyInt st = none →
      parse_inform x = .error (.valueError "Status")) ∧
    (∀ st c, x.status = some st → st ≠ [] → pyInt st = some c → c ≠ 200 →
      parse_inform x = .error (.badStatus c)) ∧
    (∀ st, x.status = some st → st ≠ [] → pyInt st = some 200 →
      ((x.latest_fw_version = none ∨ x.latest_fw_version = some []) →
        parse_inform x = .error (.missingField "LATEST_FW_VERSION")) ∧
      (∀ l, x.latest_fw_version = some l → l ≠ [] →
        ((x.logic_value_factory = none ∨ x.logic_value_factory = some []) →
          parse_inform x = .error (.missingField "LOGIC_VALUE_FACTORY")) ∧
        (∀ g, x.logic_value_factory = some g → g ≠ [] →
          ((x.binary_name = none ∨ x.binary_name = some []) →
            parse_inform x = .error (.missingField "BINARY_NAME")) ∧
          (∀ f, x.binary_name = some f → f ≠ [] →
            ((x.binary_byte_size = none ∨ x.binary_byte_size = some []) →
              parse_inform x = .error (.missingField "BINARY_BYTE_SIZE")) ∧
            (∀ sz, x.binary_byte_size = some sz → sz ≠ [] →
              (pyInt sz = none →
                parse_inform x = .error (.valueError "BINARY_BYTE_SIZE")) ∧
              (∀ k, pyInt sz = some k →
                (x.model_path = none ∨ x.model_path = some []) →
                parse_inform x = .error (.missingField "MODEL_PATH"))))))) := by
  have hif : ¬((200 : Int) ≠ 200) := by simp
  refine ⟨?_, ?_, ?_, ?_, ?_, ?_⟩
  · constructor
    · rintro ⟨info, hinfo⟩
      unfold parse_inform at hinfo
      cases h1 : requireText x.status "Status" with
      | error e => simp only [h1] at hinfo; cases hinfo
      | ok st =>
      simp only [h1] at hinfo
      obtain ⟨hst, hstne⟩ := (requireText_ok_iff _ _ _).mp h1
      cases h2 : pyInt st with
      | none => simp only [h2] at hinfo; cases hinfo
      | some code =>
      simp only [h2] at hinfo
      by_cases hc : code ≠ 200
      · rw [if_pos hc] at hinfo; cases hinfo
      rw [if_neg hc] at hinfo
      push_neg at hc
      subst hc
      cases h3 : requireText x.latest_fw_version "LATEST_FW_VERSION" with
      | error e => simp only [h3] at hinfo; cases hinfo
      | ok latest =>
      simp only [h3] at hinfo
      obtain ⟨hl, hlne⟩ := (requireText_ok_iff _ _ _).mp h3
      cases h4 : requireText x.logic_value_factory "LOGIC_VALUE_FACTORY" with
      | error e => simp only [h4] at hinfo; cases hinfo
      | ok logic =>
      simp only [h4] at hinfo
      obtain ⟨hg, hgne⟩ := (requireText_ok_iff _ _ _).mp h4
      cases h5 : requireText x.binary_name "BINARY_NAME" with
      | error e => simp only [h5] at hinfo; cases hinfo
      | ok filename =>
      simp only [h5] at hinfo
      obtain ⟨hfn, hfnne⟩ := (requireText_ok_iff _ _ _).mp h5
      cases h6 : requireText x.binary_byte_size "BINARY_BYTE_SIZE" with
      | error e => simp only [h6] at hinfo; cases hinfo
      | ok szText =>
      simp only [h6] at hinfo
      obtain ⟨hsz, hszne⟩ := (requireText_ok_iff _ _ _).mp h6
      cases h7 : pyInt szText with
      | none => simp only [h7] at hinfo; cases hinfo
      | some size =>
      simp only [h7] at hinfo
      cases h8 : requireText x.model_path "MODEL_PATH" with
      | error e => simp only [h8] at hinfo; cases hinfo
      | ok path =>
      obtain ⟨hp, hpne⟩ := (requireText_ok_iff _ _ _).mp h8
      exact ⟨⟨st, hst, hstne, h2⟩, ⟨latest, hl, hlne⟩, ⟨logic, hg, hgne⟩,
        ⟨filename, hfn, hfnne⟩, ⟨szText, size, hsz, hszne, h7⟩, ⟨path, hp, hpne⟩⟩
    · rintro ⟨⟨st, hst, hstne, hst200⟩, ⟨l, hl, hlne⟩, ⟨g, hg, hgne⟩,
        ⟨f, hf, hfne⟩, ⟨sz, k, hsz, hszne, hszk⟩, ⟨p, hp, hpne⟩⟩
      refine ⟨⟨l, g, f, p, k⟩, ?_⟩
      unfold parse_inform
      simp only [(requireText_ok_iff _ _ _).mpr ⟨hst, hstne⟩, hst200, if_neg hif,
        (requireText_ok_iff _ _ _).mpr ⟨hl, hlne⟩,
        (requireText_ok_iff _ _ _).mpr ⟨hg, hgne⟩,
        (requireText_ok_iff _ _ _).mpr ⟨hf, hfne⟩,
        (requireText_ok_iff _ _ _).mpr ⟨hsz, hszne⟩, hszk,
        (requireText_ok_iff _ _ _).mpr ⟨hp, hpne⟩]
  · intro info hinfo
    unfold parse_inform at hinfo
    cases h1 : requireText x.status "Status" with
    | error e => simp only [h1] at hinfo; cases hinfo
    | ok st =>
    simp only [h1] at hinfo
    cases h2 : pyInt st with
    | none => simp only [h2] at hinfo; cases hinfo
    | some code =>
    simp only [h2] at hinfo
    by_cases hc : code ≠ 200
    · rw [if_pos hc] at hinfo; cases hinfo
    rw [if_neg hc] at hinfo
    cases h3 : requireText x.latest_fw_version "LATEST_FW_VERSION" with
    | error e => simp only [h3] at hinfo; cases hinfo
    | ok latest =>
    simp only [h3] at hinfo
    cases h4 : requireText x.logic_value_factory "LOGIC_VALUE_FACTORY" with
    | error e => simp only [h4] at hinfo; cases hinfo
    | ok logic =>
    simp only [h4] at hinfo
    cases h5 : requireText x.binary_name "BINARY_NAME" with
    | error e => simp only [h5] at hinfo; cases hinfo
    | ok filename =>
    simp only [h5] at hinfo
    cases h6 : requireText x.binary_byte_size "BINARY_BYTE_SIZE" with
    | error e => simp only [h6] at hinfo; cases hinfo
    | ok szText =>
    simp only [h6] at hinfo
    cases h7 : pyInt szText with
    | none => simp only [h7] at hinfo; cases hinfo
    | some size =>
    simp only [h7] at hinfo
    cases h8 : requireText x.model_path "MODEL_PATH" with
    | error e => simp only [h8] at hinfo; cases hinfo
    | ok path =>
    simp only [h8] at hinfo
    obtain rfl : ({
        latest_fw_version := latest, logic_value_factory := logic,
        filename := filename, path := path, size_bytes := size } : InformInfo)
        = info := by injection hinfo
    exact ⟨((requireText_ok_iff _ _ _).mp h3).1, ((requireText_ok_iff _ _ _).mp h4).1,
      ((requireText_ok_iff _ _ _).mp h5).1, ((requireText_ok_iff _ _ _).mp h8).1,
      szText, ((requireText_ok_iff _ _ _).mp h6).1, h7⟩
  · intro h
    unfold parse_inform
    simp only [requireText_missing _ _ h]
  · intro st hst hstne hpy
    unfold parse_inform
    simp only [(requireText_ok_iff _ _ _).mpr ⟨hst, hstne⟩, hpy]
  · intro st c hst hstne hpy hc
    unfold parse_inform
    simp only [(requireText_ok_iff _ _ _).mpr ⟨hst, hstne⟩, hpy, if_pos hc]
  · intro st hst hstne hpy
    constructor
    · intro h
      unfold parse_inform
      simp only [(requireText_ok_iff _ _ _).mpr ⟨hst, hstne⟩, hpy, if_neg hif,
        requireText_missing _ _ h]
    · intro l hl hlne
      constructor
      · intro h
        unfold parse_inform
        simp only [(requireText_ok_iff _ _ _).mpr ⟨hst, hstne⟩, hpy, if_neg hif,
          (requireText_ok_iff _ _ _).mpr ⟨hl, hlne⟩, requireText_missing _ _ h]
      · intro g hg hgne
        constructor
        · intro h
          unfold parse_inform
          simp only [(requireText_ok_iff _ _ _).mpr ⟨hst, hstne⟩, hpy, if_neg hif,
            (requireText_ok_iff _ _ _).mpr ⟨hl, hlne⟩,
            (requireText_ok_iff _ _ _).mpr ⟨hg, hgne⟩, requireText_missing _ _ h]
        · intro f hf hfne
          constructor
          · intro h
            unfold parse_inform
            simp only [(requireText_ok_iff _ _ _).mpr ⟨hst, hstne⟩, hpy, if_neg hif,
              (requireText_ok_iff _ _ _).mpr ⟨hl, hlne⟩,
              (requireText_ok_iff _ _ _).mpr ⟨hg, hgne⟩,
              (requireText_ok_iff _ _ _).mpr ⟨hf, hfne⟩, requireText_missing _ _ h]
          · intro sz hsz hszne
            constructor
            · intro h
              unfold parse_inform
              simp only [(requireText_ok_iff _ _ _).mpr ⟨hst, hstne⟩, hpy, if_neg hif,
                (requireText_ok_iff _ _ _).mpr ⟨hl, hlne⟩,
                (requireText_ok_iff _ _ _).mpr ⟨hg, hgne⟩,
                (requireText_ok_iff _ _ _).mpr ⟨hf, hfne⟩,
                (requireText_ok_iff _ _ _).mpr ⟨hsz, hszne⟩, h]
            · intro k hk h
              unfold parse_inform
              simp only [(requireText_ok_iff _ _ _).mpr ⟨hst, hstne⟩, hpy, if_neg hif,
                (requireText_ok_iff _ _ _).mpr ⟨hl, hlne⟩,
                (requireText_ok_iff _ _ _).mpr ⟨hg, hgne⟩,
                (requireText_ok_iff _ _ _).mpr ⟨hf, hfne⟩,
                (requireText_ok_iff _ _ _).mpr ⟨hsz, hszne⟩, hk,
                requireText_missing _ _ h]

/-- Witness for C8 at a fully valid inform response with size text `"37"`. -/
theorem parse_inform_amended_witness :
    (∃ info, parse_inform
        {
          status := some "200".data, latest_fw_version := some "L1".data,
          logic_value_factory := some "G1".data,
          binary_name := some "f.zip.enc4".data,
          binary_byte_size := some "37".data, model_path := some "p/".data }
        = .ok info) ∧
      parse_inform
        {
          status := some "201".data, latest_fw_version := some "L1".data,
          logic_value_factory := some "G1".data,
          binary_name := some "f.zip.enc4".data,
          binary_byte_size := some "37".data, model_path := some "p/".data }
        = .error (.badStatus 201) :=
  ⟨(parse_inform_amended _).1.mpr
      ⟨⟨"200".data, rfl, by decide, by decide⟩, ⟨"L1".data, rfl, by decide⟩,
        ⟨"G1".data, rfl, by decide⟩, ⟨"f.zip.enc4".data, rfl, by decide⟩,
        ⟨"37".data, 37, rfl, by decide, by decide⟩, ⟨"p/".data, rfl, by decide⟩⟩,
    (parse_inform_amended _).2.2.2.2.1 "201".data 201 rfl (by decide) (by decide)
      (by decide)⟩

/-! ## Theorems for claim C9 -/

/-- Claim C9: `is_odin_mode` returns true iff the waiting bytes contain
`LOKE`; no waiting bytes give `False` without raising; a serial transport
failure raises `DeviceOdinError`; the two outcomes are never conflated. -/
theorem is_odin_mode_spec :
    (∀ bs : List Nat, is_odin_mode (.bytesWaiting bs) =
      .ok (bytesContains LOKE_RESPONSE bs)) ∧
    (∀ bs : List Nat, is_odin_mode (.bytesWaiting bs) = .ok true ↔
      bytesContains LOKE_RESPONSE bs = true) ∧
    is_odin_mode (.bytesWaiting []) = .ok false ∧
    is_odin_mode .failure = .error .serialCommunication ∧
    (∀ bs : List Nat, is_odin_mode (.bytesWaiting bs) ≠ .error .serialCommunication) := by
  have hbase : ∀ bs : List Nat, is_odin_mode (.bytesWaiting bs) =
      .ok (bytesContains LOKE_RESPONSE bs) := by
    intro bs
    cases bs with
    | nil => simp [is_odin_mode, bytesContains, LOKE_RESPONSE]
    | cons b rest => simp [is_odin_mode]
  refine ⟨hbase, ?_, ?_, rfl, ?_⟩
  · intro bs
    rw [hbase bs]
    simp
  · simp [is_odin_mode]
  · intro bs
    rw [hbase bs]
    simp

/-! ## Theorems for claim C10 -/

/-- Helper: `findImeiRow` on a cons. -/
theorem findImeiRow_cons (y : IMEIEvent) (t : List IMEIEvent) (sid imei : String) :
    findImeiRow (y :: t) sid imei =
      if y.session_id == sid && y.imei == imei then some y
      else findImeiRow t sid imei := by
  unfold findImeiRow
  cases hpy : (y.session_id == sid && y.imei == imei) with
  | true => simp [List.find?, hpy]
  | false => simp [List.find?, hpy]

/-- Helper: a found row matches the key and belongs to the table. -/
theorem findImeiRow_key (tbl : List IMEIEvent) (sid imei : String)
    (r : IMEIEvent) (h : findImeiRow tbl sid imei = some r) :
    (r.session_id == sid && r.imei == imei) = true ∧ r ∈ tbl := by
  induction tbl with
  | nil => exact absurd h (by simp [findImeiRow])
  | cons y t ih =>
    rw [findImeiRow_cons] at h
    by_cases hy : (y.session_id == sid && y.imei == imei) = true
    · rw [if_pos hy] at h
      obtain rfl : y = r := by injection h
      exact ⟨hy, List.mem_cons_self y t⟩
    · rw [if_neg hy] at h
      obtain ⟨h1, h2⟩ := ih h
      exact ⟨h1, List.mem_cons_of_mem y h2⟩

/-- Helper: on a table whose rows all get mapped through the conflict update
when they match the key, the found row is the updated one. -/
theorem findImeiRow_map_update (a : ImeiArgs) (now : String) :
    ∀ (t : List IMEIEvent) (r : IMEIEvent),
      findImeiRow t a.session_id a.imei = some r →
      findImeiRow
        (t.map fun x =>
          if x.session_id == a.session_id && x.imei == a.imei then updRow x a now
          else x)
        a.session_id a.imei = some (updRow r a now) := by
  intro t
  induction t with
  | nil => intro r h; simp [findImeiRow] at h
  | cons x rest ih =>
    intro r h
    rw [findImeiRow_cons] at h
    by_cases hx : (x.session_id == a.session_id && x.imei == a.imei) = true
    · rw [if_pos hx] at h
      obtain rfl : x = r := by injection h
      rw [List.map_cons, if_pos hx, findImeiRow_cons]
      rw [if_pos (by simpa only [updRow] using hx)]
    · rw [if_neg hx] at h
      rw [List.map_cons, if_neg hx, findImeiRow_cons, if_neg hx]
      exact ih r h

/-- Claim C10: when `(session_id, imei)` already has a row, the conflict
update overwrites every mutable column with the new call's values — in
particular the optional columns become the new arguments, which are `NULL`
whenever omitted — keeps `created_at`, and sets `updated_at` to the new
timestamp. -/
theorem upsert_imei_event_conflict (tbl : List IMEIEvent) (a : ImeiArgs)
    (now : String) (r : IMEIEvent)
    (h : findImeiRow tbl a.session_id a.imei = some r) :
    findImeiRow (upsert_imei_event tbl a now) a.session_id a.imei =
      some { r with
        model := a.model, csc := a.csc, version_code := a.version_code,
        fota_version := a.fota_version, serial_number := a.serial_number,
        lock_status := a.lock_status, aid := a.aid, cc := a.cc,
        status_fus := a.status_fus, status_upgrade := a.status_upgrade,
        updated_at := now, upgrade_at := a.upgrade_at } := by
  obtain ⟨hpred, hmem⟩ := findImeiRow_key tbl a.session_id a.imei r h
  have hany : (tbl.any fun x => x.session_id == a.session_id && x.imei == a.imei)
      = true := List.any_eq_true.mpr ⟨r, hmem, hpred⟩
  rw [upsert_imei_event, if_pos hany]
  exact findImeiRow_map_update a now tbl r h

/-- Witness for C10: a second upsert in the same session that omits the
optional serial number, lock status, AID, CC and upgrade timestamp resets all
of them to `NULL`, as on the FUS-error path. -/
theorem upsert_imei_event_conflict_witness :
    findImeiRow [imeiRow0] imeiArgs1.session_id imeiArgs1.imei = some imeiRow0 ∧
      findImeiRow (upsert_imei_event [imeiRow0] imeiArgs1 "t1")
          imeiArgs1.session_id imeiArgs1.imei =
        some { imeiRow0 with
          model := imeiArgs1.model, csc := imeiArgs1.csc,
          version_code := imeiArgs1.version_code,
          fota_version := imeiArgs1.fota_version,
          serial_number := imeiArgs1.serial_number,
          lock_status := imeiArgs1.lock_status, aid := imeiArgs1.aid,
          cc := imeiArgs1.cc, status_fus := imeiArgs1.status_fus,
          status_upgrade := imeiArgs1.status_upgrade,
          updated_at := "t1", upgrade_at := imeiArgs1.upgrade_at } :=
  ⟨by decide, upsert_imei_event_conflict [imeiRow0] imeiArgs1 "t1" imeiRow0 (by decide)⟩

/-! ## Theorems for claim C1 -/

/-- Claim C1 counterexample: a repository row with `downloaded = 1` whose
encrypted file is absent is reported as cached by
`check_and_prepare_firmware`, yet `get_or_download_firmware` does not return
the stored record — it proceeds to download. -/
theorem cached_flag_but_redownload :
    is_cached_check [recCex] "A/B/C/A".data = true ∧
      get_or_download_decision "fw".data [] [recCex] "A/B/C/A".data = .download ∧
      get_or_download_decision "fw".data [] [recCex] "A/B/C/A".data ≠
        .returnExisting recCex := by
  refine ⟨?_, ?_, ?_⟩ <;> decide

/-- Claim C1 (amended): `check_and_prepare_firmware` reports a version as
cached exactly when the store holds a row for it with `downloaded = 1`,
independently of the file system; but `get_or_download_firmware` skips the
download exactly when the stored row's encrypted file still exists on disk
(the `downloaded` flag is not consulted there), so after the encrypted file
is deleted the pipeline downloads again. -/
theorem cached_flag_semantics (fwDir : List Char) (files : List (List Char))
    (tbl : List FirmwareRecord) (v : List Char) :
    (is_cached_check tbl v = true ↔
      ∃ r, find_firmware tbl v = some r ∧ r.downloaded = 1) ∧
    (∀ r : FirmwareRecord,
      get_or_download_decision fwDir files tbl v = .returnExisting r ↔
        find_firmware tbl v = some r ∧ encrypted_file_path fwDir r ∈ files) := by
  constructor
  · unfold is_cached_check
    cases hf : find_firmware tbl v with
    | none => simp
    | some c =>
      simp only [hf, beq_iff_eq]
      constructor
      · intro hc
        exact ⟨c, rfl, hc⟩
      · rintro ⟨r, hr, hd⟩
        obtain rfl : c = r := by injection hr
        exact hd
  · intro r
    cases hf : find_firmware tbl v with
    | none =>
      have hdec : get_or_download_decision fwDir files tbl v = .download := by
        unfold get_or_download_decision
        rw [hf]
      rw [hdec]
      simp
    | some c =>
      have hdec : get_or_download_decision fwDir files tbl v =
          if encrypted_file_path fwDir c ∈ files then .returnExisting c
          else .download := by
        unfold get_or_download_decision
        rw [hf]
      rw [hdec]
      by_cases hmem : encrypted_file_path fwDir c ∈ files
      · rw [if_pos hmem]
        constructor
        · intro he
          obtain rfl : c = r := by injection he
          exact ⟨rfl, hmem⟩
        · rintro ⟨hr, _⟩
          obtain rfl : c = r := by injection hr
          rfl
      · rw [if_neg hmem]
        constructor
        · intro he; cases he
        · rintro ⟨hr, hmem'⟩
          obtain rfl : c = r := by injection hr
          exact absurd hmem' hmem

/-! ## Theorems for claim C2 -/

/-- Helper: the chunk-writing loop appends every chunk and adds up all chunk
lengths. -/
theorem downloadWriteLoop_eq (chunks : List (List Nat)) :
    ∀ (content : List Nat) (written : Nat),
      downloadWriteLoop chunks content written =
        (content ++ chunks.flatten, written + (chunks.map List.length).sum) := by
  induction chunks with
  | nil => intro content written; simp [downloadWriteLoop]
  | cons c rest ih =>
    intro content written
    by_cases hc : c = []
    · subst hc
      rw [downloadWriteLoop, if_pos rfl, ih]
      simp
    · rw [downloadWriteLoop, if_neg hc, ih]
      simp [List.append_assoc, Nat.add_assoc]

/-- Helper: the bytes already in the part file number exactly the resume
offset. -/
theorem dlBase_length (resume : Bool) (fs : DownloadFS) :
    (dlBase resume fs).length = dlStart resume fs := by
  cases hp : fs.part with
  | none => cases resume <;> simp [dlBase, dlStart, hp]
  | some content =>
    cases resume with
    | false => simp [dlBase, dlStart, hp]
    | true =>
      cases content with
      | nil => simp [dlBase, dlStart, hp]
      | cons b bs => simp [dlBase, dlStart, hp]

/-- Claim C2: after the stream is exhausted the engine fails with a size
mismatch exactly when resume offset plus streamed bytes differs from the
expected size; on mismatch the part file keeps all written bytes and the
final file is untouched; on success the part file is renamed away and the
finalized file's size equals the persisted record's `size_bytes`, with
`downloaded = 1`. -/
theorem download_stream_spec (resume : Bool) (fs : DownloadFS)
    (chunks : List (List Nat)) (vn fn pth lg lt : List Char) (expected : Nat) :
    ((∃ got fs', download_stream resume fs chunks vn fn pth lg lt expected =
        .sizeMismatch got expected fs') ↔
      dlStart resume fs + (chunks.map List.length).sum ≠ expected) ∧
    (∀ got exp fs',
      download_stream resume fs chunks vn fn pth lg lt expected =
        .sizeMismatch got exp fs' →
      got = dlStart resume fs + (chunks.map List.length).sum ∧ exp = expected ∧
      fs'.part = some (dlBase resume fs ++ chunks.flatten) ∧ fs'.enc = fs.enc) ∧
    (∀ fs' rec,
      download_stream resume fs chunks vn fn pth lg lt expected = .ok fs' rec →
      fs'.part = none ∧ fs'.enc = some (dlBase resume fs ++ chunks.flatten) ∧
      rec.size_bytes = expected ∧ rec.downloaded = 1 ∧
      (dlBase resume fs ++ chunks.flatten).length = rec.size_bytes) := by
  have hlen : (dlBase resume fs ++ chunks.flatten).length =
      dlStart resume fs + (chunks.map List.length).sum := by
    rw [List.length_append, dlBase_length, List.length_flatten]
  unfold download_stream
  rw [downloadWriteLoop_eq]
  by_cases hW : dlStart resume fs + (chunks.map List.length).sum ≠ expected
  · rw [if_pos hW]
    refine ⟨⟨fun _ => hW, fun _ => ⟨_, _, rfl⟩⟩, ?_, ?_⟩
    · intro got exp fs' heq
      injection heq with h1 h2 h3
      exact ⟨h1.symm, h2.symm, by rw [← h3], by rw [← h3]⟩
    · intro fs' rec heq
      cases heq
  · rw [if_neg hW]
    push_neg at hW
    refine ⟨⟨fun h => ?_, fun h => absurd hW h⟩, ?_, ?_⟩
    · obtain ⟨got, fs', heq⟩ := h
      cases heq
    · intro got exp fs' heq
      cases heq
    · intro fs' rec heq
      injection heq with h1 h2
      refine ⟨by rw [← h1], by rw [← h1], by rw [← h2], by rw [← h2], ?_⟩
      rw [← h2]
      rw [hlen, hW]

/-- Witness for C2 at a fresh (non-resumed) download of two chunks totalling
the expected 4 bytes. -/
theorem download_stream_spec_witness :
    ((∃ got fs', download_stream false ⟨none, none⟩ [[1, 2], [3, 4]]
        "v".data "f".data "p".data "g".data "l".data 4 =
        .sizeMismatch got 4 fs') ↔
      dlStart false ⟨none, none⟩ + ([[1, 2], [3, 4]].map List.length).sum ≠ 4) ∧
    (∀ got exp fs',
      download_stream false ⟨none, none⟩ [[1, 2], [3, 4]]
        "v".data "f".data "p".data "g".data "l".data 4 =
        .sizeMismatch got exp fs' →
      got = dlStart false ⟨none, none⟩ + ([[1, 2], [3, 4]].map List.length).sum ∧
      exp = 4 ∧
      fs'.part = some (dlBase false ⟨none, none⟩ ++ [[1, 2], [3, 4]].flatten) ∧
      fs'.enc = (⟨none, none⟩ : DownloadFS).enc) ∧
    (∀ fs' rec,
      download_stream false ⟨none, none⟩ [[1, 2], [3, 4]]
        "v".data "f".data "p".data "g".data "l".data 4 = .ok fs' rec →
      fs'.part = none ∧
      fs'.enc = some (dlBase false ⟨none, none⟩ ++ [[1, 2], [3, 4]].flatten) ∧
      rec.size_bytes = 4 ∧ rec.downloaded = 1 ∧
      (dlBase false ⟨none, none⟩ ++ [[1, 2], [3, 4]].flatten).length =
        rec.size_bytes) :=
  download_stream_spec false ⟨none, none⟩ [[1, 2], [3, 4]]
    "v".data "f".data "p".data "g".data "l".data 4

end Nanosamfw
